import Mathlib

/-!
# Circle of Trust — verification of the deliberation core

A shallow embedding of the three-stage council deliberation pipeline of the
Circle of Trust backend, together with proofs of its stated properties.

The embedding covers:

* the response sanitizer (reasoning-markup removal, newline collapsing,
  whitespace trimming) and its idempotence;
* the message-list preparation and failure handling of the Ollama gateway
  client (with an explicit heap so that Python's shallow-copy aliasing of
  message dicts is observable);
* the Stage-1 concurrent fan-out / fan-in with an explicit completion
  schedule, showing output order is roster order;
* the Stage-2 ranking-protocol parser;
* the rank aggregator and its stable sort;
* the SSE event generator of the streaming endpoint;
* the system-prompt file parser.

Functions whose Python source ships with the repository (ollama_client.py,
main.py) are translated directly.  The council orchestration module is only
reachable through its callers and tests, so its operations are modelled from
the specification, constrained by the unit tests that ship in the repository.
-/

namespace CircleOfTrust

/-! ## Characters, whitespace, substring search -/

/-- Whitespace characters as recognised by Python's str.strip and regex \s
(the subset relevant to this code base). -/
def isWS (c : Char) : Bool :=
  c == ' ' || c == '\n' || c == '\t' || c == '\r'

/-- Find the first occurrence of pattern list in a character list.
Returns the text before the occurrence and the text after it. -/
def splitFirst (pat : List Char) : List Char → Option (List Char × List Char)
  | [] => if pat.isPrefixOf ([] : List Char) then some ([], []) else none
  | c :: cs =>
    if pat.isPrefixOf (c :: cs) then some ([], (c :: cs).drop pat.length)
    else (splitFirst pat cs).map fun p => (c :: p.1, p.2)

/-! ## ResponseSanitizer

Modelled from the spec: backend/council.py is absent from the source tree
(only its callers and tests are present).  Per the spec, clean removes any
reasoning block delimited by the case-sensitive think markers, including
unterminated blocks (removed to end of text) and inline blocks, collapses
runs of three or more newlines to two, and trims surrounding whitespace.
The behaviour matches test_format_compliance.py. -/

/-- The opening reasoning marker. -/
def thinkOpenTag : List Char := String.toList "<think>"

/-- The closing reasoning marker. -/
def thinkCloseTag : List Char := String.toList "</think>"

/-- Three consecutive newlines, the pattern collapsed by the sanitizer. -/
def tripleNl : List Char := ['\n', '\n', '\n']

/-- Fueled worker removing reasoning blocks: find the first opening marker,
drop up to and including the next closing marker (or to the end of text when
unterminated), and repeat on the spliced text until no marker remains. -/
def removeThinkFuel : Nat → List Char → List Char
  | 0, s => s
  | f + 1, s =>
    match splitFirst thinkOpenTag s with
    | none => s
    | some (b, rest) =>
      match splitFirst thinkCloseTag rest with
      | none => b
      | some (_, after) => removeThinkFuel f (b ++ after)

/-- Remove every reasoning block from a character list. -/
def removeThink (s : List Char) : List Char :=
  removeThinkFuel (s.length + 1) s

/-- Collapse every run of three or more newlines to exactly two. -/
def collapseNl : List Char → List Char
  | [] => []
  | [c] => [c]
  | [c, d] => [c, d]
  | a :: b :: c :: rest =>
    if a = '\n' ∧ b = '\n' ∧ c = '\n' then collapseNl (b :: c :: rest)
    else a :: collapseNl (b :: c :: rest)

/-- Trim leading and trailing whitespace from a character list
(Python str.strip). -/
def stripChars (s : List Char) : List Char :=
  ((s.dropWhile isWS).reverse.dropWhile isWS).reverse

/-- Modelled from the spec: council.clean_response_content — strip reasoning
markup, collapse excessive newlines, trim surrounding whitespace. -/
def clean_response_content (s : String) : String :=
  String.mk (stripChars (collapseNl (removeThink s.toList)))

/-! ## Gateway client (src/backend/ollama_client.py, query_ollama)

Python message dicts are mutable and shared by reference, so the embedding
uses an explicit heap: a message list is a list of addresses into a heap of
message records.  query_ollama's final_messages = messages.copy() copies the
address list only (a shallow copy); writing through an address is visible to
every list holding that address. -/

/-- A chat message record (a Python dict with role and content keys). -/
structure ChatMsg where
  role : String
  content : String
deriving DecidableEq

/-- Read a message list (a list of heap addresses) out of the heap. -/
def derefMsgs (heap : List ChatMsg) (addrs : List Nat) : List (Option ChatMsg) :=
  addrs.map fun i => heap[i]?

/-- Lines 61-68 of query_ollama: copy the caller's message list and, when a
non-empty system prompt is given, overwrite the content of an existing
leading system message in place, or insert a fresh system message at the
front of the copy.  Returns the new heap and the final message list. -/
def buildFinalMessages (heap : List ChatMsg) (msgs : List Nat) (sp : Option String) :
    List ChatMsg × List Nat :=
  match sp with
  | none => (heap, msgs)
  | some s =>
    if s = "" then (heap, msgs)
    else
      match msgs with
      | [] => (heap ++ [⟨"system", s⟩], [heap.length])
      | i :: rest =>
        match heap[i]? with
        | some m =>
          if m.role = "system" then (heap.set i ⟨m.role, s⟩, i :: rest)
          else (heap ++ [⟨"system", s⟩], heap.length :: i :: rest)
        | none => (heap ++ [⟨"system", s⟩], heap.length :: i :: rest)

/-- query_ollama: build the payload messages, call the network, and map any
exception to a None result (the failure value); on success return the
content.  Returns the (possibly mutated) heap alongside the result. -/
def query_ollama (heap : List ChatMsg) (messages : List Nat) (sp : Option String)
    (net : List (Option ChatMsg) → Except String String) : List ChatMsg × Option String :=
  let fm := buildFinalMessages heap messages sp
  (fm.1,
   match net (derefMsgs fm.1 fm.2) with
   | .ok c => some c
   | .error _ => none)

/-! ## Stage 1: concurrent fan-out over the advisor roster

query_advisors_parallel (ollama_client.py lines 103-135) creates one task
per advisor and joins them with asyncio.gather, which stores each task's
result in the slot of this task regardless of completion order.  The
completion order is modelled as an explicit schedule: a list of task indices
in the order the concurrent calls finish.  The per-advisor gateway outcome is
a function from task index to the optional response content. -/

/-- An advisor roster entry (config.ADVISORS). -/
structure Advisor where
  name : String
  model : String
  prompt_file : String
deriving DecidableEq

/-- One Stage-1 result: the advisor's name and its sanitized response. -/
structure AdvisorResponse where
  model : String
  response : String
deriving DecidableEq

/-- A failed call contributes empty content; a successful one is sanitized. -/
def contentOf : Option String → String
  | none => ""
  | some c => clean_response_content c

/-- Process the completions in schedule order, writing each task's result
into that task's own slot (the asyncio.gather join discipline). -/
def fillSlots {α : Type} (tasks : List α) : List Nat → List (Option α) → List (Option α)
  | [], slots => slots
  | i :: rest, slots => fillSlots tasks rest (slots.set i tasks[i]?)

/-- Join of the concurrent fan-out under a given completion schedule. -/
def gatherSched {α : Type} (tasks : List α) (order : List Nat) : List (Option α) :=
  fillSlots tasks order (List.replicate tasks.length none)

/-- query_advisors_parallel: one task per advisor, gathered under the given
completion schedule; the result maps each advisor name to its outcome. -/
def query_advisors_parallel (roster : List Advisor) (g : Nat → Option String)
    (order : List Nat) : List (String × Option String) :=
  (gatherSched (roster.enum.map fun p => (p.2.name, g p.1)) order).reduceOption

/-- The Stage-1 output in roster order: one sanitized entry per advisor. -/
def stage1Responses (roster : List Advisor) (g : Nat → Option String) :
    List AdvisorResponse :=
  roster.enum.map fun p => ⟨p.2.name, contentOf (g p.1)⟩

/-- Modelled from the spec: council.stage1_collect_responses — an empty
advisor roster is a fatal precondition rejected before any gateway call;
otherwise every advisor is queried once and the answers are collected.  The
second component logs the indices of the gateway calls issued. -/
def stage1_collect_responses (roster : List Advisor) (g : Nat → Option String)
    (order : List Nat) : Except String (List AdvisorResponse) × List Nat :=
  match roster with
  | [] => (.error "No advisors configured", [])
  | _ :: _ =>
    (.ok ((query_advisors_parallel roster g order).map fun p => ⟨p.1, contentOf p.2⟩),
     List.range roster.length)

/-! ## Stage 2: the ranking-protocol parser

Modelled from the spec: council.py's ranking parser — locate the header
line, then greedily read the following lines as numbered label items,
stopping at the first line that does not match; a missing header yields the
empty ranking.  Matches test_council.test_stage2_collect_rankings. -/

/-- The ranking header marker. -/
def rankingHeader : List Char := String.toList "FINAL RANKING:"

/-- Split a character list into lines at newline characters. -/
def splitLines : List Char → List (List Char)
  | [] => [[]]
  | c :: cs =>
    if c = '\n' then [] :: splitLines cs
    else
      match splitLines cs with
      | [] => [[c]]
      | l :: ls => (c :: l) :: ls

/-- A line containing the ranking header marker. -/
def isHeaderLine (l : List Char) : Bool :=
  (splitFirst rankingHeader l).isSome

/-- Match a numbered item line: one or more digits, a dot, optional spaces,
then the label (the non-empty remainder of the line). -/
def matchNumbered (l : List Char) : Option (List Char) :=
  let ds := l.takeWhile Char.isDigit
  if ds.isEmpty then none
  else
    match l.drop ds.length with
    | '.' :: rest =>
      let lab := rest.dropWhile fun c => c == ' '
      if lab.isEmpty then none else some lab
    | _ => none

/-- Greedily read numbered item lines, stopping at the first mismatch. -/
def takeNumbered : List (List Char) → List (List Char)
  | [] => []
  | l :: ls =>
    match matchNumbered l with
    | some lab => lab :: takeNumbered ls
    | none => []

/-- Scan for the header line, then read the numbered items after it. -/
def findRankingLines : List (List Char) → List (List Char)
  | [] => []
  | l :: ls => if isHeaderLine l then takeNumbered ls else findRankingLines ls

/-- Modelled from the spec: the Stage-2 parser from raw advisor output to an
ordered label sequence. -/
def parse_ranking (s : String) : List String :=
  (findRankingLines (splitLines s.toList)).map String.mk

/-! ## Rank aggregation

Modelled from the spec: council.calculate_aggregate_rankings — for every
model of the label map, collect its 1-based positions across all advisors'
parsed rankings (dropping unresolvable labels), average them, and sort the
entries ascending by average rank with a stable sort, so ties keep the
Stage-1 (label map) order.  Matches test_council.test_calculate_aggregate_rankings. -/

/-- One advisor's Stage-2 result. -/
structure RankingEntry where
  model : String
  ranking : String
  parsed_ranking : List String
deriving DecidableEq

/-- One aggregated entry; averages are modelled as exact rationals. -/
structure AggregateRankingEntry where
  model : String
  average_rank : ℚ
  votes : Nat
deriving DecidableEq

/-- Resolve a label to a model through the label map. -/
def lookupLabel (lm : List (String × String)) (lab : String) : Option String :=
  (lm.find? fun p => p.1 == lab).map fun p => p.2

/-- All 1-based positions recorded for a model across the rankings. -/
def positionsFor (rankings : List RankingEntry) (lm : List (String × String))
    (m : String) : List Nat :=
  (rankings.map fun r =>
    r.parsed_ranking.enum.filterMap fun p =>
      if lookupLabel lm p.2 = some m then some (p.1 + 1) else none).flatten

/-- The aggregate entry of one model, none when it collected no votes. -/
def aggEntryFor (rankings : List RankingEntry) (lm : List (String × String))
    (m : String) : Option AggregateRankingEntry :=
  let ps := positionsFor rankings lm m
  if ps.isEmpty then none
  else some ⟨m, (ps.map fun n => (n : ℚ)).sum / (ps.length : ℚ), ps.length⟩

/-- The aggregate entries before sorting, in label-map (Stage-1) order. -/
def unsortedAggregate (rankings : List RankingEntry) (lm : List (String × String)) :
    List AggregateRankingEntry :=
  (lm.map fun p => p.2).filterMap (aggEntryFor rankings lm)

/-- Stable insertion: the new entry goes before the first entry whose
average rank is not smaller. -/
def insertByRank (e : AggregateRankingEntry) :
    List AggregateRankingEntry → List AggregateRankingEntry
  | [] => [e]
  | x :: xs =>
    if e.average_rank ≤ x.average_rank then e :: x :: xs
    else x :: insertByRank e xs

/-- Stable insertion sort ascending by average rank. -/
def sortByRank : List AggregateRankingEntry → List AggregateRankingEntry
  | [] => []
  | e :: rest => insertByRank e (sortByRank rest)

/-- Modelled from the spec: council.calculate_aggregate_rankings. -/
def calculate_aggregate_rankings (rankings : List RankingEntry)
    (lm : List (String × String)) : List AggregateRankingEntry :=
  sortByRank (unsortedAggregate rankings lm)

/-! ## The streaming event generator (src/backend/main.py, lines 285-331)

Each awaited step either succeeds or raises; a raise anywhere inside the
generator body is caught by the single except clause, which emits one
terminal error event.  The title step is present only on the first message
of a conversation. -/

/-- The server-sent events of the streaming council endpoint. -/
inductive CouncilEvent where
  | stage1_start
  | stage1_complete
  | stage2_start
  | stage2_complete
  | stage3_start
  | stage3_complete
  | title_complete
  | complete
  | error (msg : String)
deriving DecidableEq

/-- The event stream produced by event_generator, given the outcome of each
awaited step. -/
def event_generator (addUser : Except String Unit) (s1 s2 s3 : Except String Unit)
    (title : Option (Except String Unit)) (save : Except String Unit) :
    List CouncilEvent :=
  match addUser with
  | .error e => [.error e]
  | .ok _ =>
    .stage1_start ::
      match s1 with
      | .error e => [.error e]
      | .ok _ =>
        .stage1_complete :: .stage2_start ::
          match s2 with
          | .error e => [.error e]
          | .ok _ =>
            .stage2_complete :: .stage3_start ::
              match s3 with
              | .error e => [.error e]
              | .ok _ =>
                .stage3_complete ::
                  match title with
                  | some (.error e) => [.error e]
                  | some (.ok _) =>
                    .title_complete ::
                      (match save with
                       | .error e => [.error e]
                       | .ok _ => [.complete])
                  | none =>
                    match save with
                    | .error e => [.error e]
                    | .ok _ => [.complete]

/-- The stage markers of a fully successful run, in protocol order. -/
def idealStageEvents : List CouncilEvent :=
  [.stage1_start, .stage1_complete, .stage2_start, .stage2_complete,
   .stage3_start, .stage3_complete, .complete]

/-- The stage markers (everything except the auxiliary title event and the
error event). -/
def isStageEvent : CouncilEvent → Bool
  | .title_complete => false
  | .error _ => false
  | _ => true

/-- The terminal error event. -/
def isErrorEvent : CouncilEvent → Bool
  | .error _ => true
  | _ => false

/-! ## System-prompt loading (src/backend/ollama_client.py, get_system_prompt)

The Python function reads the file and searches it with the pattern
matching a System Prompt section: the header literal, whitespace containing
at least one newline, an optional opening markdown fence, a lazily-matched
body, an optional closing fence, and trailing whitespace up to the next
section header or the end of the file.  The embedding reproduces the
backtracking regex semantics operationally; the file system is a capability
returning the file's content or an I/O error. -/

/-- The section header literal of the prompt-file pattern. -/
def sysPromptHeader : List Char := String.toList "## System Prompt"

/-- The optional opening markdown fence of the section body. -/
def openFence : List Char := String.toList "```markdown\n"

/-- The optional closing markdown fence of the section body. -/
def closeFence : List Char := String.toList "```\n"

/-- The next-section marker terminating the body. -/
def hashHash : List Char := String.toList "##"

/-- Trailing whitespace followed by a section marker or the end of text. -/
def wsHashOk (w : List Char) : Bool :=
  let v := w.dropWhile isWS
  v.isEmpty || hashHash.isPrefixOf v

/-- Can the pattern's tail (optional closing fence, whitespace, next header
or end) match at this point?  The fence alternative is tried first, as the
regex engine does. -/
def suffixOk (u : List Char) : Bool :=
  (closeFence.isPrefixOf u && wsHashOk (u.drop closeFence.length)) || wsHashOk u

/-- The lazy body group: the shortest text whose remainder matches the
pattern tail. -/
def lazyGroup (acc : List Char) : List Char → List Char
  | [] => acc.reverse
  | c :: cs =>
    if suffixOk (c :: cs) then acc.reverse else lazyGroup (c :: acc) cs

/-- Search the file content for the System Prompt section and return its
raw body group, scanning header occurrences left to right as re.search
does. -/
def findSection : List Char → Option (List Char)
  | [] => none
  | c :: cs =>
    if sysPromptHeader.isPrefixOf (c :: cs) then
      let rest := (c :: cs).drop sysPromptHeader.length
      let w := rest.takeWhile isWS
      if w.contains '\n' then
        let tailWs := (w.reverse.takeWhile fun d => !(d = '\n')).length
        let t := rest.drop (w.length - tailWs)
        let t2 := if openFence.isPrefixOf t then t.drop openFence.length else t
        some (lazyGroup [] t2)
      else findSection cs
    else findSection cs

/-- get_system_prompt: read the prompt file through the file-system
capability; any I/O failure or a missing section yields the empty string,
otherwise the stripped section body is returned. -/
def get_system_prompt (fs : String → Except String String) (path : String) : String :=
  match fs path with
  | .error _ => ""
  | .ok content =>
    match findSection content.toList with
    | none => ""
    | some sec => String.mk (stripChars sec)

end CircleOfTrust

namespace CircleOfTrust

/-! ## Theorems: substring search -/

theorem splitFirst_eq_append {pat : List Char} :
    ∀ {s b a : List Char}, splitFirst pat s = some (b, a) → s = b ++ pat ++ a := by
  intro s
  induction s with
  | nil =>
    intro b a h
    simp only [splitFirst] at h
    split at h
    · rename_i hp
      rw [ List.isPrefixOf_iff_prefix] at hp
      have hpat : pat = [] := List.prefix_nil.mp hp
      simp only [Option.some.injEq, Prod.mk.injEq] at h
      obtain ⟨rfl, rfl⟩ := h
      simp [hpat]
    · exact absurd h (by simp)
  | cons c cs ih =>
    intro b a h
    simp only [splitFirst] at h
    split at h
    · rename_i hp
      rw [ List.isPrefixOf_iff_prefix] at hp
      obtain ⟨t, ht⟩ := hp
      simp only [Option.some.injEq, Prod.mk.injEq] at h
      obtain ⟨rfl, rfl⟩ := h
      rw [List.nil_append, ← ht, List.drop_left]
    · cases hsp : splitFirst pat cs with
      | none => rw [hsp] at h; simp at h
      | some p =>
        rw [hsp] at h
        simp only [Option.map_some', Option.some.injEq] at h
        obtain ⟨rfl, rfl⟩ : (c :: p.1, p.2) = (b, a) := h
        have := ih (b := p.1) (a := p.2) (by rw [hsp])
        simp [this]

/-- A some result of splitFirst exhibits the pattern as an infix. -/
theorem infix_of_splitFirst {pat s b a : List Char}
    (h : splitFirst pat s = some (b, a)) : pat <:+: s :=
  ⟨b, a, (splitFirst_eq_append h).symm⟩

/-- When the pattern occurs nowhere, splitFirst returns none. -/
theorem splitFirst_eq_none {pat s : List Char} (h : ¬ pat <:+: s) :
    splitFirst pat s = none := by
  cases hsp : splitFirst pat s with
  | none => rfl
  | some p => exact absurd (infix_of_splitFirst (b := p.1) (a := p.2) (by rw [hsp])) h

/-- The text before the first occurrence contains no occurrence itself. -/
theorem not_infix_of_splitFirst {pat : List Char} (hne : pat ≠ []) :
    ∀ {s b a : List Char}, splitFirst pat s = some (b, a) → ¬ pat <:+: b := by
  intro s
  induction s with
  | nil =>
    intro b a h
    simp only [splitFirst] at h
    split at h
    · rename_i hp
      rw [ List.isPrefixOf_iff_prefix] at hp
      exact absurd (List.prefix_nil.mp hp) hne
    · exact absurd h (by simp)
  | cons c cs ih =>
    intro b a h
    simp only [splitFirst] at h
    split at h
    · simp only [Option.some.injEq, Prod.mk.injEq] at h
      obtain ⟨rfl, rfl⟩ := h
      intro hinf
      exact hne (List.eq_nil_of_infix_nil hinf)
    · rename_i hp
      cases hsp : splitFirst pat cs with
      | none => rw [hsp] at h; simp at h
      | some p =>
        rw [hsp] at h
        simp only [Option.map_some', Option.some.injEq] at h
        obtain ⟨rfl, rfl⟩ : (c :: p.1, p.2) = (b, a) := h
        have hsp' : splitFirst pat cs = some (p.1, p.2) := by rw [hsp]
        intro hinf
        rcases List.infix_cons_iff.mp hinf with hpre | hinf'
        · have hcs : cs = p.1 ++ pat ++ p.2 := splitFirst_eq_append hsp'
          have h1 : p.1 <+: cs := by
            rw [hcs, List.append_assoc]
            exact List.prefix_append p.1 (pat ++ p.2)
          have h2 : c :: p.1 <+: c :: cs := List.cons_prefix_cons.mpr ⟨rfl, h1⟩
          exact hp ( List.isPrefixOf_iff_prefix.mpr (hpre.trans h2))
        · exact ih hsp' hinf'

/-- When splitFirst finds nothing, the pattern is not an infix. -/
theorem splitFirst_none_no_occurrence {pat : List Char} :
    ∀ {s : List Char}, splitFirst pat s = none → ¬ pat <:+: s := by
  intro s
  induction s with
  | nil =>
    intro h hinf
    have hpat : pat = [] := List.eq_nil_of_infix_nil hinf
    subst hpat
    simp [splitFirst] at h
  | cons c cs ih =>
    intro h hinf
    simp only [splitFirst] at h
    split at h
    · simp at h
    · rename_i hp
      rcases List.infix_cons_iff.mp hinf with hpre | hinf'
      · exact hp ( List.isPrefixOf_iff_prefix.mpr hpre)
      · exact ih (Option.map_eq_none'.mp h) hinf'

/-- An infix remains an infix after consing an element at the front. -/
theorem isInfix_cons {l t : List Char} (a : Char) (h : l <:+: t) :
    l <:+: a :: t := by
  obtain ⟨x, y, hxy⟩ := h
  exact ⟨a :: x, y, by rw [← hxy]; rfl⟩

/-! ## Theorems: the sanitizer never leaves a marker behind -/

theorem removeThinkFuel_no_marker :
    ∀ (f : Nat) (s : List Char), s.length < f →
      ¬ thinkOpenTag <:+: removeThinkFuel f s := by
  intro f
  induction f with
  | zero => intro s h; omega
  | succ f ih =>
    intro s hlen
    cases hsp : splitFirst thinkOpenTag s with
    | none =>
      rw [show removeThinkFuel (f + 1) s = s by simp [removeThinkFuel, hsp]]
      exact splitFirst_none_no_occurrence hsp
    | some p =>
      obtain ⟨b, rest⟩ := p
      cases hsp2 : splitFirst thinkCloseTag rest with
      | none =>
        rw [show removeThinkFuel (f + 1) s = b by simp [removeThinkFuel, hsp, hsp2]]
        exact not_infix_of_splitFirst (by decide) hsp
      | some q =>
        obtain ⟨m, after⟩ := q
        rw [show removeThinkFuel (f + 1) s = removeThinkFuel f (b ++ after) by
          simp [removeThinkFuel, hsp, hsp2]]
        apply ih
        have h1 : s = b ++ thinkOpenTag ++ rest := splitFirst_eq_append hsp
        have h2 : rest = m ++ thinkCloseTag ++ after := splitFirst_eq_append hsp2
        have e1 : s.length = b.length + thinkOpenTag.length + rest.length := by
          rw [h1]; simp; omega
        have e2 : rest.length = m.length + thinkCloseTag.length + after.length := by
          rw [h2]; simp; omega
        have e3 : thinkOpenTag.length = 7 := rfl
        have e4 : thinkCloseTag.length = 8 := rfl
        simp only [List.length_append]
        omega

theorem removeThinkFuel_eq_self {s : List Char} (h : ¬ thinkOpenTag <:+: s) :
    ∀ f, removeThinkFuel f s = s := by
  intro f
  cases f with
  | zero => rfl
  | succ f => simp [removeThinkFuel, splitFirst_eq_none h]

theorem removeThink_no_marker (s : List Char) :
    ¬ thinkOpenTag <:+: removeThink s :=
  removeThinkFuel_no_marker (s.length + 1) s (Nat.lt_succ_self _)

theorem removeThink_eq_self {s : List Char} (h : ¬ thinkOpenTag <:+: s) :
    removeThink s = s :=
  removeThinkFuel_eq_self h _

/-! ## Theorems: newline collapsing -/

/-- Collapsing preserves the first two characters. -/
theorem collapseNl_cons₂ :
    ∀ (xs : List Char) (x y : Char), ∃ t, collapseNl (x :: y :: xs) = x :: y :: t := by
  intro xs
  induction xs with
  | nil => intro x y; exact ⟨[], rfl⟩
  | cons c r ih =>
    intro x y
    by_cases h3 : x = '\n' ∧ y = '\n' ∧ c = '\n'
    · obtain ⟨t, ht⟩ := ih y c
      refine ⟨t, ?_⟩
      simp only [collapseNl, if_pos h3, ht]
      rw [h3.1, h3.2.1, h3.2.2]
    · obtain ⟨t, ht⟩ := ih y c
      refine ⟨c :: t, ?_⟩
      simp only [collapseNl, if_neg h3, ht]

theorem collapseNl_eq_self :
    ∀ (s : List Char), ¬ tripleNl <:+: s → collapseNl s = s := by
  intro s
  induction s with
  | nil => intro _; rfl
  | cons a tail ih =>
    intro h
    match tail with
    | [] => rfl
    | [b] => rfl
    | b :: c :: rest =>
      by_cases h3 : a = '\n' ∧ b = '\n' ∧ c = '\n'
      · exfalso
        apply h
        refine ⟨[], rest, ?_⟩
        simp [tripleNl, h3.1, h3.2.1, h3.2.2]
      · simp only [collapseNl, if_neg h3]
        rw [ih (fun hinf => h (isInfix_cons a hinf))]

theorem collapseNl_no_triple :
    ∀ (s : List Char), ¬ tripleNl <:+: collapseNl s := by
  intro s
  induction s with
  | nil =>
    intro hinf
    have := hinf.length_le
    simp [tripleNl, collapseNl] at this
  | cons a tail ih =>
    match tail with
    | [] =>
      intro hinf
      have := hinf.length_le
      simp [tripleNl, collapseNl] at this
    | [b] =>
      intro hinf
      have := hinf.length_le
      simp [tripleNl, collapseNl] at this
    | b :: c :: rest =>
      by_cases h3 : a = '\n' ∧ b = '\n' ∧ c = '\n'
      · simpa only [collapseNl, if_pos h3] using ih
      · simp only [collapseNl, if_neg h3]
        intro hinf
        rcases List.infix_cons_iff.mp hinf with hpre | hinf'
        · obtain ⟨t, ht⟩ := collapseNl_cons₂ rest b c
          rw [ht] at hpre
          have e1 := List.cons_prefix_cons.mp hpre
          have e2 := List.cons_prefix_cons.mp e1.2
          have e3 := List.cons_prefix_cons.mp e2.2
          exact h3 ⟨e1.1.symm, e2.1.symm, e3.1.symm⟩
        · exact ih hinf'

/-- A newline-free pattern that survives into the collapsed text as a prefix
was already a prefix of the source text. -/
theorem collapseNl_nonl_of_pre :
    ∀ (u q : List Char), '\n' ∉ q → q <+: collapseNl u → q <+: u := by
  intro u
  induction u with
  | nil => intro q _ h; simpa [collapseNl] using h
  | cons a tail ih =>
    intro q hnl h
    match tail with
    | [] => simpa [collapseNl] using h
    | [b] => simpa [collapseNl] using h
    | b :: c :: rest =>
      by_cases h3 : a = '\n' ∧ b = '\n' ∧ c = '\n'
      · rw [show collapseNl (a :: b :: c :: rest) = collapseNl (b :: c :: rest) by
          simp only [collapseNl, if_pos h3]] at h
        match q with
        | [] => exact List.nil_prefix
        | d :: q2 =>
          exfalso
          have hd : d = b := by
            obtain ⟨t, ht⟩ := collapseNl_cons₂ rest b c
            rw [ht] at h
            exact (List.cons_prefix_cons.mp h).1
          exact hnl (by rw [hd, h3.2.1]; exact List.mem_cons_self _ _)
      · rw [show collapseNl (a :: b :: c :: rest) = a :: collapseNl (b :: c :: rest) by
          simp only [collapseNl, if_neg h3]] at h
        match q with
        | [] => exact List.nil_prefix
        | d :: q2 =>
          obtain ⟨hd, h2⟩ := List.cons_prefix_cons.mp h
          have hq2 : q2 <+: b :: c :: rest :=
            ih q2 (fun hm => hnl (List.mem_cons_of_mem d hm)) h2
          exact List.cons_prefix_cons.mpr ⟨hd, hq2⟩

/-- A newline-free pattern occurring in the collapsed text already occurred
in the source text. -/
theorem collapseNl_nonl_within :
    ∀ (u q : List Char), '\n' ∉ q → q <:+: collapseNl u → q <:+: u := by
  intro u
  induction u with
  | nil => intro q _ h; simpa [collapseNl] using h
  | cons a tail ih =>
    intro q hnl h
    match tail with
    | [] => simpa [collapseNl] using h
    | [b] => simpa [collapseNl] using h
    | b :: c :: rest =>
      by_cases h3 : a = '\n' ∧ b = '\n' ∧ c = '\n'
      · rw [show collapseNl (a :: b :: c :: rest) = collapseNl (b :: c :: rest) by
          simp only [collapseNl, if_pos h3]] at h
        exact isInfix_cons a (ih q hnl h)
      · rw [show collapseNl (a :: b :: c :: rest) = a :: collapseNl (b :: c :: rest) by
          simp only [collapseNl, if_neg h3]] at h
        rcases List.infix_cons_iff.mp h with hpre | hinf'
        · match q with
          | [] => exact ⟨[], a :: b :: c :: rest, rfl⟩
          | d :: q2 =>
            obtain ⟨hd, h2⟩ := List.cons_prefix_cons.mp hpre
            have hq2 : q2 <+: b :: c :: rest :=
              collapseNl_nonl_of_pre _ q2 (fun hm => hnl (List.mem_cons_of_mem d hm)) h2
            exact (List.cons_prefix_cons.mpr ⟨hd, hq2⟩).isInfix
        · exact isInfix_cons a (ih q hnl hinf')

/-! ## Theorems: whitespace trimming -/

theorem dropWhile_dropWhile (p : Char → Bool) :
    ∀ l : List Char, (l.dropWhile p).dropWhile p = l.dropWhile p := by
  intro l
  induction l with
  | nil => rfl
  | cons c cs ih =>
    by_cases hp : p c
    · simp [List.dropWhile_cons, hp, ih]
    · simp [List.dropWhile_cons, hp]

theorem dropWhile_head_false {p : Char → Bool} :
    ∀ {l c : List Char} {d : Char}, l.dropWhile p = d :: c → p d = false := by
  intro l
  induction l with
  | nil => intro c d h; simp at h
  | cons x xs ih =>
    intro c d h
    by_cases hp : p x
    · rw [List.dropWhile_cons, if_pos hp] at h
      exact ih h
    · rw [List.dropWhile_cons, if_neg hp] at h
      obtain ⟨rfl, _⟩ := List.cons.inj h
      exact Bool.not_eq_true _ ▸ eq_false_of_ne_true hp

/-- The stripped text is a prefix of the left-trimmed text. -/
theorem stripChars_pre_dropWhile (s : List Char) :
    stripChars s <+: s.dropWhile isWS := by
  unfold stripChars
  have h := List.dropWhile_suffix (l := (s.dropWhile isWS).reverse) isWS
  have := List.reverse_prefix.mpr h
  simpa using this

theorem stripChars_within (s : List Char) : stripChars s <:+: s :=
  ((stripChars_pre_dropWhile s).isInfix).trans (List.dropWhile_suffix isWS).isInfix

theorem stripChars_idem (s : List Char) : stripChars (stripChars s) = stripChars s := by
  have hL : (stripChars s).dropWhile isWS = stripChars s := by
    cases hh : stripChars s with
    | nil => rfl
    | cons c t =>
      have hpre : stripChars s <+: s.dropWhile isWS := stripChars_pre_dropWhile s
      rw [hh] at hpre
      obtain ⟨d, hd⟩ := hpre
      have hc : isWS c = false := dropWhile_head_false hd.symm
      simp [List.dropWhile_cons, hc]
  show (((stripChars s).dropWhile isWS).reverse.dropWhile isWS).reverse = stripChars s
  rw [hL]
  rw [show (stripChars s).reverse = (s.dropWhile isWS).reverse.dropWhile isWS by
    show (((s.dropWhile isWS).reverse.dropWhile isWS).reverse).reverse = _
    rw [List.reverse_reverse]]
  rw [dropWhile_dropWhile]
  rfl

/-! ## Theorems: claim C6, the sanitizer is total and idempotent -/

/-- C6: for every input string the response sanitizer terminates (it is a
total Lean function) and is idempotent: cleaning an already-cleaned string
changes nothing. -/
theorem clean_response_content_idempotent (s : String) :
    clean_response_content (clean_response_content s) = clean_response_content s := by
  unfold clean_response_content
  have htl : ∀ l : List Char, (String.mk l).toList = l := fun _ => rfl
  rw [htl]
  set y := removeThink s.toList with hy
  set z := collapseNl y with hz
  set w := stripChars z with hw
  have hno : ¬ thinkOpenTag <:+: w := by
    intro hinf
    have h1 : thinkOpenTag <:+: z := hinf.trans (hw ▸ stripChars_within z)
    have h2 : thinkOpenTag <:+: y := collapseNl_nonl_within y thinkOpenTag (by decide) (hz ▸ h1)
    exact removeThink_no_marker s.toList (hy ▸ h2)
  have htriple : ¬ tripleNl <:+: w := by
    intro hinf
    have h1 : tripleNl <:+: z := hinf.trans (hw ▸ stripChars_within z)
    exact collapseNl_no_triple y (hz ▸ h1)
  rw [removeThink_eq_self hno, collapseNl_eq_self w htriple, hw, stripChars_idem]

/-! ## Theorems: the gather join is schedule-independent -/

theorem fillSlots_length {α : Type} (tasks : List α) :
    ∀ (order : List Nat) (slots : List (Option α)),
      (fillSlots tasks order slots).length = slots.length := by
  intro order
  induction order with
  | nil => intro slots; rfl
  | cons i rest ih => intro slots; rw [fillSlots, ih, List.length_set]

theorem fillSlots_getElem?_not_mem {α : Type} (tasks : List α) :
    ∀ (order : List Nat) (slots : List (Option α)) (j : Nat), j ∉ order →
      (fillSlots tasks order slots)[j]? = slots[j]? := by
  intro order
  induction order with
  | nil => intro slots j _; rfl
  | cons i rest ih =>
    intro slots j hj
    rw [fillSlots, ih _ _ (fun h => hj (List.mem_cons_of_mem i h)),
      List.getElem?_set_ne (fun h => hj (by rw [← h]; exact List.mem_cons_self i rest))]

theorem fillSlots_getElem?_mem {α : Type} (tasks : List α) :
    ∀ (order : List Nat) (slots : List (Option α)) (j : Nat), j ∈ order →
      j < slots.length → (fillSlots tasks order slots)[j]? = some tasks[j]? := by
  intro order
  induction order with
  | nil => intro slots j hj _; simp at hj
  | cons i rest ih =>
    intro slots j hj hlt
    by_cases hr : j ∈ rest
    · rw [fillSlots, ih _ _ hr (by rw [List.length_set]; exact hlt)]
    · have hij : j = i := by
        rcases List.mem_cons.mp hj with h | h
        · exact h
        · exact absurd h hr
      subst hij
      rw [fillSlots, fillSlots_getElem?_not_mem tasks rest _ j hr,
        List.getElem?_set, if_pos rfl, if_pos hlt]

/-- Under any schedule that is a permutation of the task indices, the join
returns exactly the task results, in task order. -/
theorem gatherSched_perm {α : Type} (tasks : List α) (order : List Nat)
    (h : order.Perm (List.range tasks.length)) :
    gatherSched tasks order = tasks.map some := by
  apply List.ext_getElem?
  intro j
  by_cases hj : j < tasks.length
  · have hmem : j ∈ order := h.mem_iff.mpr (List.mem_range.mpr hj)
    rw [gatherSched, fillSlots_getElem?_mem tasks order _ j hmem (by
      rw [List.length_replicate]; exact hj)]
    rw [List.getElem?_map, List.getElem?_eq_getElem hj]
    rfl
  · have h1 : (gatherSched tasks order).length = tasks.length := by
      rw [gatherSched, fillSlots_length, List.length_replicate]
    rw [List.getElem?_eq_none (by omega), List.getElem?_eq_none (by simp; omega)]

theorem reduceOption_map_some {α : Type} (l : List α) :
    (l.map some).reduceOption = l := by
  induction l with
  | nil => rfl
  | cons a t ih => simp [List.reduceOption_cons_of_some, ih]

/-! ## Theorems: Stage-1 collection -/

/-- Helper: with a non-empty roster and a permutation schedule, Stage 1
returns the roster-ordered response list. -/
theorem stage1_eq_ok (roster : List Advisor) (g : Nat → Option String)
    (order : List Nat) (hne : roster ≠ [])
    (hperm : order.Perm (List.range roster.length)) :
    (stage1_collect_responses roster g order).1 = .ok (stage1Responses roster g) := by
  match roster, hne with
  | a :: rs, _ =>
    show Except.ok ((query_advisors_parallel (a :: rs) g order).map
      fun p => (⟨p.1, contentOf p.2⟩ : AdvisorResponse)) = _
    have hlen : ((a :: rs).enum.map fun p => (p.2.name, g p.1)).length =
        (a :: rs).length := by simp
    have hg : query_advisors_parallel (a :: rs) g order =
        (a :: rs).enum.map fun p => (p.2.name, g p.1) := by
      rw [query_advisors_parallel, gatherSched_perm _ _ (by rw [hlen]; exact hperm),
        reduceOption_map_some]
    rw [hg, List.map_map]
    rfl

/-- Helper: the Stage-1 entries, element by element. -/
theorem stage1Responses_getElem? (roster : List Advisor) (g : Nat → Option String)
    (i : Nat) :
    (stage1Responses roster g)[i]? =
      roster[i]?.map fun a => (⟨a.name, contentOf (g i)⟩ : AdvisorResponse) := by
  rw [stage1Responses, List.getElem?_map, List.getElem?_enum]
  cases roster[i]? <;> rfl

/-- C1: for every non-empty roster, every gateway behaviour, and every
completion schedule that is a permutation of the task indices, Stage-1
collection succeeds with exactly one AdvisorResponse per advisor, in roster
order: the i-th entry carries the i-th advisor's name, independent of the
schedule. -/
theorem stage1_one_response_per_advisor_in_roster_order
    (roster : List Advisor) (g : Nat → Option String) (order : List Nat)
    (hne : roster ≠ []) (hperm : order.Perm (List.range roster.length)) :
    (stage1_collect_responses roster g order).1 = .ok (stage1Responses roster g) ∧
    (stage1Responses roster g).length = roster.length ∧
    ∀ i : Nat, (stage1Responses roster g)[i]?.map AdvisorResponse.model =
      roster[i]?.map Advisor.name := by
  refine ⟨stage1_eq_ok roster g order hne hperm, by simp [stage1Responses], ?_⟩
  intro i
  rw [stage1Responses_getElem?]
  cases roster[i]? <;> rfl

/-- C1 witness: two advisors, a reversed completion schedule; the output
still lists the advisors in roster order. -/
theorem stage1_one_response_per_advisor_in_roster_order_witness :
    (stage1_collect_responses
        [⟨"Advisor A", "m1", "p1"⟩, ⟨"Advisor B", "m2", "p2"⟩]
        (fun i => if i = 0 then some "Response A" else some "Response B")
        [1, 0]).1 =
      .ok [⟨"Advisor A", "Response A"⟩, ⟨"Advisor B", "Response B"⟩] := by
  have h := stage1_one_response_per_advisor_in_roster_order
    [⟨"Advisor A", "m1", "p1"⟩, ⟨"Advisor B", "m2", "p2"⟩]
    (fun i => if i = 0 then some "Response A" else some "Response B")
    [1, 0] (by decide) (by decide)
  rw [h.1]
  rfl

/-- C2: a gateway call whose transport raises any exception makes
query_ollama return the failure value None instead of raising; in Stage 1
the advisor whose call failed gets an AdvisorResponse with empty content,
and the entries of every other advisor are exactly what they would have been
had the failure not occurred. -/
theorem query_ollama_failure_degrades_locally :
    (∀ (heap : List ChatMsg) (messages : List Nat) (sp : Option String) (e : String),
      (query_ollama heap messages sp (fun _ => .error e)).2 = none) ∧
    ∀ (roster : List Advisor) (g g' : Nat → Option String) (order : List Nat) (k : Nat),
      roster ≠ [] → order.Perm (List.range roster.length) →
      g' k = none → (∀ j, j ≠ k → g' j = g j) →
      (stage1_collect_responses roster g' order).1 = .ok (stage1Responses roster g') ∧
      (k < roster.length →
        (stage1Responses roster g')[k]?.map AdvisorResponse.response = some "") ∧
      ∀ j, j ≠ k → (stage1Responses roster g')[j]? = (stage1Responses roster g)[j]? := by
  constructor
  · intro heap messages sp e
    rfl
  · intro roster g g' order k hne hperm hk hagree
    refine ⟨stage1_eq_ok roster g' order hne hperm, ?_, ?_⟩
    · intro hklt
      rw [stage1Responses_getElem?, List.getElem?_eq_getElem hklt]
      simp [hk, contentOf]
    · intro j hj
      rw [stage1Responses_getElem?, stage1Responses_getElem?, hagree j hj]

/-- C2 witness: three advisors, the middle call fails; its entry is empty and
the outer entries match the failure-free run. -/
theorem query_ollama_failure_degrades_locally_witness :
    (query_ollama [] [] none (fun _ => .error "boom")).2 = none ∧
    (stage1_collect_responses
        [⟨"A", "m1", "p1"⟩, ⟨"B", "m2", "p2"⟩, ⟨"C", "m3", "p3"⟩]
        (fun i => if i = 1 then none else some "ok") [0, 1, 2]).1 =
      .ok [⟨"A", "ok"⟩, ⟨"B", ""⟩, ⟨"C", "ok"⟩] := by
  have h := query_ollama_failure_degrades_locally
  refine ⟨h.1 [] [] none "boom", ?_⟩
  have h2 := (h.2 [⟨"A", "m1", "p1"⟩, ⟨"B", "m2", "p2"⟩, ⟨"C", "m3", "p3"⟩]
    (fun _ => some "ok") (fun i => if i = 1 then none else some "ok")
    [0, 1, 2] 1 (by decide) (by decide) (by decide)
    (fun j hj => by simp [hj])).1
  rw [h2]
  rfl

/-- C3: an empty advisor roster is rejected before any concurrency begins:
Stage 1 fails with the input-validation error and the log of gateway
invocations is empty, for every gateway behaviour and schedule; the
streaming endpoint then terminates with the error event right after
stage1_start, so no later stage runs and no empty output is produced. -/
theorem empty_roster_rejected_before_any_call
    (g : Nat → Option String) (order : List Nat) :
    (stage1_collect_responses [] g order).1 = .error "No advisors configured" ∧
    (stage1_collect_responses [] g order).2 = [] ∧
    ∀ (s2 s3 : Except String Unit) (title : Option (Except String Unit))
      (save : Except String Unit),
      event_generator (.ok ()) (.error "No advisors configured") s2 s3 title save =
        [.stage1_start, .error "No advisors configured"] :=
  ⟨rfl, rfl, fun _ _ _ _ => rfl⟩

/-! ## Theorems: claim C9, system-prompt insertion and the shallow copy -/

/-- C9 counterexample: when the caller's list already begins with a system
message, query_ollama's shallow copy shares that message record with the
caller, and overwriting its content mutates the caller's data: at the heap
holding messages (system, old) and (user, hi), after the call with system
prompt new the caller's own list no longer reads as before.  The claim that
the caller's original messages list is left unmodified is therefore false. -/
theorem query_ollama_mutates_caller_on_replace :
    derefMsgs (buildFinalMessages
        [⟨"system", "old"⟩, ⟨"user", "hi"⟩] [0, 1] (some "new")).1 [0, 1] ≠
      derefMsgs [⟨"system", "old"⟩, ⟨"user", "hi"⟩] [0, 1] := by
  decide

/-- C9 (amended): for every heap, valid message list and non-empty system
prompt, the message list sent to the gateway begins with a system message
whose content is the prompt; when the caller's list does not begin with a
system message a fresh record is inserted at the front of the copy and the
caller's view of the heap is unchanged, but when it does begin with one,
that shared record's content is overwritten in place, so the caller's first
message now carries the new prompt (the shallow-copy aliasing). -/
theorem query_ollama_system_message (heap : List ChatMsg) (msgs : List Nat)
    (s : String) (hs : s ≠ "") (hvalid : ∀ i ∈ msgs, i < heap.length) :
    (∃ j rest, (buildFinalMessages heap msgs (some s)).2 = j :: rest ∧
      (buildFinalMessages heap msgs (some s)).1[j]? = some ⟨"system", s⟩) ∧
    (msgs = [] →
      buildFinalMessages heap msgs (some s) = (heap ++ [⟨"system", s⟩], [heap.length])) ∧
    (∀ i rest, msgs = i :: rest → heap[i]?.map ChatMsg.role = some "system" →
      buildFinalMessages heap msgs (some s) = (heap.set i ⟨"system", s⟩, msgs) ∧
      (heap.set i ⟨"system", s⟩)[i]? = some ⟨"system", s⟩) ∧
    (∀ i rest, msgs = i :: rest → heap[i]?.map ChatMsg.role ≠ some "system" →
      buildFinalMessages heap msgs (some s) = (heap ++ [⟨"system", s⟩], heap.length :: msgs) ∧
      derefMsgs (heap ++ [⟨"system", s⟩]) msgs = derefMsgs heap msgs) := by
  have hcallerView : derefMsgs (heap ++ [(⟨"system", s⟩ : ChatMsg)]) msgs = derefMsgs heap msgs := by
    unfold derefMsgs
    apply List.map_congr_left
    intro j hjmem
    exact List.getElem?_append_left (hvalid j hjmem)
  refine ⟨?_, ?_, ?_, ?_⟩
  · match msgs, hvalid with
    | [], _ =>
      refine ⟨heap.length, [], ?_, ?_⟩
      · simp [buildFinalMessages, hs]
      · simp [buildFinalMessages, hs, List.getElem?_concat_length]
    | i :: rest, hvalid =>
      have hilt : i < heap.length := hvalid i (List.mem_cons_self i rest)
      obtain ⟨m, hm⟩ : ∃ m, heap[i]? = some m :=
        ⟨heap[i], List.getElem?_eq_getElem hilt⟩
      by_cases hrole : m.role = "system"
      · refine ⟨i, rest, ?_, ?_⟩
        · simp [buildFinalMessages, hs, hm, hrole]
        · rw [show (buildFinalMessages heap (i :: rest) (some s)).1 =
              heap.set i ⟨"system", s⟩ by simp [buildFinalMessages, hs, hm, hrole]]
          rw [List.getElem?_set, if_pos rfl, if_pos hilt]
      · refine ⟨heap.length, i :: rest, ?_, ?_⟩
        · simp [buildFinalMessages, hs, hm, hrole]
        · rw [show (buildFinalMessages heap (i :: rest) (some s)).1 =
              heap ++ [⟨"system", s⟩] by simp [buildFinalMessages, hs, hm, hrole]]
          simp [List.getElem?_concat_length]
  · intro hnil
    subst hnil
    simp [buildFinalMessages, hs]
  · intro i rest hcons hrole
    subst hcons
    have hilt : i < heap.length := hvalid i (List.mem_cons_self i rest)
    obtain ⟨m, hm⟩ : ∃ m, heap[i]? = some m :=
      ⟨heap[i], List.getElem?_eq_getElem hilt⟩
    rw [hm, Option.map_some', Option.some.injEq] at hrole
    constructor
    · simp [buildFinalMessages, hs, hm, hrole]
    · rw [List.getElem?_set, if_pos rfl, if_pos hilt]
  · intro i rest hcons hrole
    subst hcons
    have hilt : i < heap.length := hvalid i (List.mem_cons_self i rest)
    obtain ⟨m, hm⟩ : ∃ m, heap[i]? = some m :=
      ⟨heap[i], List.getElem?_eq_getElem hilt⟩
    rw [hm, Option.map_some', Ne, Option.some.injEq] at hrole
    exact ⟨by simp [buildFinalMessages, hs, hm, hrole], hcallerView⟩

/-- C9 amended witness: insert branch at a concrete input — the caller's
view is unchanged and the sent list gains a fresh leading system message. -/
theorem query_ollama_system_message_witness :
    buildFinalMessages [⟨"user", "hi"⟩] [0] (some "sp") =
      ([⟨"user", "hi"⟩, ⟨"system", "sp"⟩], [1, 0]) ∧
    derefMsgs [⟨"user", "hi"⟩, ⟨"system", "sp"⟩] [0] =
      derefMsgs [⟨"user", "hi"⟩] [0] := by
  have h := query_ollama_system_message [⟨"user", "hi"⟩] [0] "sp" (by decide)
    (by decide)
  have h2 := h.2.2.2 0 [] rfl (by decide)
  exact ⟨h2.1, h2.2⟩

/-! ## Theorems: the Stage-2 ranking parser -/

/-- Helper: without a header line nothing is parsed. -/
theorem findRankingLines_no_header :
    ∀ ls : List (List Char), (∀ l ∈ ls, isHeaderLine l = false) →
      findRankingLines ls = [] := by
  intro ls
  induction ls with
  | nil => intro _; rfl
  | cons l ls ih =>
    intro h
    rw [findRankingLines, if_neg (by rw [h l (List.mem_cons_self l ls)]; simp)]
    exact ih fun x hx => h x (List.mem_cons_of_mem l hx)

/-- C4: the parser scans for the header line and then greedily reads
numbered item lines, stopping at the first mismatch or at the end of text;
the documented example parses to its two labels, and a text with no header
parses to the empty sequence. -/
theorem parse_ranking_header_then_greedy :
    parse_ranking "FINAL RANKING:\n1. Response B\n2. Response A" =
      ["Response B", "Response A"] ∧
    (∀ s : String, (∀ l ∈ splitLines s.toList, isHeaderLine l = false) →
      parse_ranking s = []) ∧
    (∀ (pre : List (List Char)) (h : List Char) (rest : List (List Char)),
      (∀ l ∈ pre, isHeaderLine l = false) → isHeaderLine h = true →
      findRankingLines (pre ++ h :: rest) = takeNumbered rest) ∧
    (∀ (good : List (List Char)) (bad : List Char) (post : List (List Char))
        (labs : List (List Char)),
      good.map matchNumbered = labs.map some → matchNumbered bad = none →
      takeNumbered (good ++ bad :: post) = labs) ∧
    (∀ (good labs : List (List Char)),
      good.map matchNumbered = labs.map some → takeNumbered good = labs) := by
  refine ⟨by decide, ?_, ?_, ?_, ?_⟩
  · intro s h
    rw [parse_ranking, findRankingLines_no_header _ h]
    rfl
  · intro pre h rest
    induction pre with
    | nil =>
      intro _ hh
      rw [List.nil_append, findRankingLines, if_pos (by rw [hh])]
    | cons p pre ih =>
      intro hn hh
      rw [List.cons_append, findRankingLines,
        if_neg (by rw [hn p (List.mem_cons_self p pre)]; simp)]
      exact ih (fun x hx => hn x (List.mem_cons_of_mem p hx)) hh
  · intro good
    induction good with
    | nil =>
      intro bad post labs hmap hbad
      have : labs = [] := by
        cases labs with
        | nil => rfl
        | cons a t => simp at hmap
      subst this
      rw [List.nil_append, takeNumbered, hbad]
    | cons gl good ih =>
      intro bad post labs hmap hbad
      cases labs with
      | nil => simp at hmap
      | cons la labs =>
        simp only [List.map_cons, List.cons.injEq] at hmap
        rw [List.cons_append, takeNumbered, hmap.1]
        rw [ih bad post labs hmap.2 hbad]
  · intro good
    induction good with
    | nil =>
      intro labs hmap
      cases labs with
      | nil => rfl
      | cons a t => simp at hmap
    | cons gl good ih =>
      intro labs hmap
      cases labs with
      | nil => simp at hmap
      | cons la labs =>
        simp only [List.map_cons, List.cons.injEq] at hmap
        rw [takeNumbered, hmap.1, ih labs hmap.2]

/-- C4 witness: the general parts applied at concrete inputs. -/
theorem parse_ranking_header_then_greedy_witness :
    parse_ranking "no ranking protocol here" = [] ∧
    findRankingLines [String.toList "intro", String.toList "FINAL RANKING:",
        String.toList "1. Response A"] =
      takeNumbered [String.toList "1. Response A"] ∧
    takeNumbered [String.toList "1. Response A", String.toList "prose",
        String.toList "2. Response B"] = [String.toList "Response A"] := by
  refine ⟨parse_ranking_header_then_greedy.2.1 "no ranking protocol here" (by decide),
    parse_ranking_header_then_greedy.2.2.1 [String.toList "intro"]
      (String.toList "FINAL RANKING:") [String.toList "1. Response A"]
      (by decide) (by decide), ?_⟩
  exact parse_ranking_header_then_greedy.2.2.2.1 [String.toList "1. Response A"]
    (String.toList "prose") [String.toList "2. Response B"]
    [String.toList "Response A"] (by decide) (by decide)

/-! ## Theorems: the rank aggregator and its stable sort -/

theorem mem_insertByRank {y e : AggregateRankingEntry} :
    ∀ {l : List AggregateRankingEntry}, y ∈ insertByRank e l → y = e ∨ y ∈ l := by
  intro l
  induction l with
  | nil => intro h; simpa [insertByRank] using h
  | cons x xs ih =>
    intro h
    rw [insertByRank] at h
    split at h
    · rcases List.mem_cons.mp h with h1 | h1
      · exact Or.inl h1
      · exact Or.inr h1
    · rcases List.mem_cons.mp h with h1 | h1
      · exact Or.inr (h1 ▸ List.mem_cons_self x xs)
      · rcases ih h1 with h2 | h2
        · exact Or.inl h2
        · exact Or.inr (List.mem_cons_of_mem x h2)

theorem pairwise_insertByRank (e : AggregateRankingEntry) :
    ∀ {l : List AggregateRankingEntry},
      l.Pairwise (fun a b => a.average_rank ≤ b.average_rank) →
      (insertByRank e l).Pairwise (fun a b => a.average_rank ≤ b.average_rank) := by
  intro l
  induction l with
  | nil => intro _; simp [insertByRank]
  | cons x xs ih =>
    intro h
    rw [insertByRank]
    rcases List.pairwise_cons.mp h with ⟨hx, hxs⟩
    split
    · rename_i hle
      refine List.pairwise_cons.mpr ⟨?_, h⟩
      intro y hy
      rcases List.mem_cons.mp hy with h1 | h1
      · exact h1 ▸ hle
      · exact le_trans hle (hx y h1)
    · rename_i hgt
      refine List.pairwise_cons.mpr ⟨?_, ih hxs⟩
      intro y hy
      rcases mem_insertByRank hy with h1 | h1
      · exact h1 ▸ le_of_not_le hgt
      · exact hx y h1

theorem pairwise_sortByRank :
    ∀ l : List AggregateRankingEntry,
      (sortByRank l).Pairwise (fun a b => a.average_rank ≤ b.average_rank) := by
  intro l
  induction l with
  | nil => simp [sortByRank]
  | cons e rest ih => exact pairwise_insertByRank e ih

theorem filter_insertByRank (q : ℚ) (e : AggregateRankingEntry) :
    ∀ l : List AggregateRankingEntry,
      (insertByRank e l).filter (fun x => decide (x.average_rank = q)) =
        if e.average_rank = q
        then e :: l.filter (fun x => decide (x.average_rank = q))
        else l.filter (fun x => decide (x.average_rank = q)) := by
  intro l
  induction l with
  | nil =>
    rw [insertByRank]
    by_cases hq : e.average_rank = q
    · simp [List.filter_cons, hq]
    · simp [List.filter_cons, hq]
  | cons x xs ih =>
    rw [insertByRank]
    split
    · rename_i hle
      by_cases hq : e.average_rank = q
      · simp [List.filter_cons, hq]
      · simp [List.filter_cons, hq]
    · rename_i hgt
      have hxlt : x.average_rank < e.average_rank := lt_of_not_le hgt
      simp only [List.filter_cons, ih]
      by_cases hq : e.average_rank = q
      · have hxq : ¬ x.average_rank = q := by
          intro hx
          rw [hx] at hxlt
          rw [hq] at hxlt
          exact lt_irrefl q hxlt
        simp [hq, hxq]
      · by_cases hxq : x.average_rank = q
        · simp [hq, hxq]
        · simp [hq, hxq]

theorem filter_sortByRank (q : ℚ) :
    ∀ l : List AggregateRankingEntry,
      (sortByRank l).filter (fun x => decide (x.average_rank = q)) =
        l.filter (fun x => decide (x.average_rank = q)) := by
  intro l
  induction l with
  | nil => rfl
  | cons e rest ih =>
    rw [sortByRank, filter_insertByRank]
    by_cases hq : e.average_rank = q
    · rw [if_pos hq, ih, List.filter_cons, if_pos (by simpa using hq)]
    · rw [if_neg hq, ih, List.filter_cons, if_neg (by simp [hq])]

theorem mem_sortByRank {y : AggregateRankingEntry} :
    ∀ {l : List AggregateRankingEntry}, y ∈ sortByRank l → y ∈ l := by
  intro l
  induction l with
  | nil => intro h; simp [sortByRank] at h
  | cons e rest ih =>
    intro h
    rcases mem_insertByRank h with h1 | h1
    · exact h1 ▸ List.mem_cons_self e rest
    · exact List.mem_cons_of_mem e (ih h1)

/-- C5: every aggregate entry's average rank is the arithmetic mean of the
1-based positions collected for its model and its vote count is the number
of positions collected; on the documented two-model, two-judge example both
models end with average rank 3/2 and two votes. -/
theorem aggregate_mean_and_votes :
    (∀ (rankings : List RankingEntry) (lm : List (String × String))
        (e : AggregateRankingEntry), e ∈ calculate_aggregate_rankings rankings lm →
      e.average_rank = ((positionsFor rankings lm e.model).map fun n => (n : ℚ)).sum /
          ((positionsFor rankings lm e.model).length : ℚ) ∧
      e.votes = (positionsFor rankings lm e.model).length) ∧
    calculate_aggregate_rankings
        [⟨"A", "FINAL RANKING:\n1. Response A\n2. Response B",
            ["Response A", "Response B"]⟩,
         ⟨"B", "FINAL RANKING:\n1. Response B\n2. Response A",
            ["Response B", "Response A"]⟩]
        [("Response A", "Model A"), ("Response B", "Model B")] =
      [⟨"Model A", 3 / 2, 2⟩, ⟨"Model B", 3 / 2, 2⟩] := by
  constructor
  · intro rankings lm e hmem
    have hmem2 : e ∈ unsortedAggregate rankings lm := mem_sortByRank hmem
    rw [unsortedAggregate] at hmem2
    obtain ⟨m, _, hagg⟩ := List.mem_filterMap.mp hmem2
    rw [aggEntryFor] at hagg
    split at hagg
    · exact absurd hagg (by simp)
    · obtain rfl : (⟨m, ((positionsFor rankings lm m).map fun n => (n : ℚ)).sum /
          ((positionsFor rankings lm m).length : ℚ),
          (positionsFor rankings lm m).length⟩ : AggregateRankingEntry) = e :=
        Option.some.inj hagg
      exact ⟨rfl, rfl⟩
  · have hA : positionsFor
        [⟨"A", "FINAL RANKING:\n1. Response A\n2. Response B",
            ["Response A", "Response B"]⟩,
         ⟨"B", "FINAL RANKING:\n1. Response B\n2. Response A",
            ["Response B", "Response A"]⟩]
        [("Response A", "Model A"), ("Response B", "Model B")] "Model A" = [1, 2] := by
      decide
    have hB : positionsFor
        [⟨"A", "FINAL RANKING:\n1. Response A\n2. Response B",
            ["Response A", "Response B"]⟩,
         ⟨"B", "FINAL RANKING:\n1. Response B\n2. Response A",
            ["Response B", "Response A"]⟩]
        [("Response A", "Model A"), ("Response B", "Model B")] "Model B" = [2, 1] := by
      decide
    rw [calculate_aggregate_rankings, unsortedAggregate]
    rw [show ([("Response A", "Model A"), ("Response B", "Model B")].map
        fun p => p.2) = ["Model A", "Model B"] from rfl]
    rw [List.filterMap_cons, List.filterMap_cons, List.filterMap_nil]
    rw [aggEntryFor, hA, aggEntryFor, hB]
    norm_num
    rw [sortByRank, sortByRank, sortByRank, insertByRank, insertByRank]
    norm_num

/-- C5 witness: the general clause applied to the first entry of the
documented example. -/
theorem aggregate_mean_and_votes_witness :
    (⟨"Model A", 3 / 2, 2⟩ : AggregateRankingEntry).votes =
      (positionsFor
        [⟨"A", "FINAL RANKING:\n1. Response A\n2. Response B",
            ["Response A", "Response B"]⟩,
         ⟨"B", "FINAL RANKING:\n1. Response B\n2. Response A",
            ["Response B", "Response A"]⟩]
        [("Response A", "Model A"), ("Response B", "Model B")] "Model A").length := by
  have h := aggregate_mean_and_votes
  have hmem : (⟨"Model A", 3 / 2, 2⟩ : AggregateRankingEntry) ∈
      calculate_aggregate_rankings
        [⟨"A", "FINAL RANKING:\n1. Response A\n2. Response B",
            ["Response A", "Response B"]⟩,
         ⟨"B", "FINAL RANKING:\n1. Response B\n2. Response A",
            ["Response B", "Response A"]⟩]
        [("Response A", "Model A"), ("Response B", "Model B")] := by
    rw [h.2]
    exact List.mem_cons_self _ _
  exact (h.1 _ _ _ hmem).2

/-- C7: the aggregate ranking list is sorted ascending by average rank, and
for every rank value the entries carrying it appear in exactly the order of
the unsorted (label-map, i.e. Stage-1) list: ties are broken stably by the
original response order. -/
theorem aggregate_sorted_ties_stable (rankings : List RankingEntry)
    (lm : List (String × String)) :
    (calculate_aggregate_rankings rankings lm).Pairwise
      (fun a b => a.average_rank ≤ b.average_rank) ∧
    ∀ q : ℚ, (calculate_aggregate_rankings rankings lm).filter
        (fun e => decide (e.average_rank = q)) =
      (unsortedAggregate rankings lm).filter
        (fun e => decide (e.average_rank = q)) :=
  ⟨pairwise_sortByRank _, fun q => filter_sortByRank q _⟩

/-! ## Theorems: the streaming event protocol -/

/-- C8: for every outcome of the awaited steps, the stage events of the
emitted stream form a prefix of the protocol order stage1_start,
stage1_complete, stage2_start, stage2_complete, stage3_start,
stage3_complete, complete; either the full sequence is emitted and no error
event occurs, or exactly one error event occurs and it is the final element
of the stream — events already emitted are never retracted. -/
theorem event_stream_protocol (addUser s1 s2 s3 : Except String Unit)
    (title : Option (Except String Unit)) (save : Except String Unit) :
    ((event_generator addUser s1 s2 s3 title save).filter isStageEvent <+:
      idealStageEvents) ∧
    (((event_generator addUser s1 s2 s3 title save).filter isErrorEvent = [] ∧
      (event_generator addUser s1 s2 s3 title save).filter isStageEvent =
        idealStageEvents) ∨
     ∃ m, (event_generator addUser s1 s2 s3 title save).getLast? =
        some (.error m) ∧
      (event_generator addUser s1 s2 s3 title save).filter isErrorEvent =
        [.error m] ∧
      (event_generator addUser s1 s2 s3 title save).filter isStageEvent ≠
        idealStageEvents) := by
  cases addUser with
  | error e =>
    refine ⟨?_, Or.inr ⟨e, rfl, rfl, ?_⟩⟩
    · show ([] : List CouncilEvent) <+: idealStageEvents
      decide
    · show ([] : List CouncilEvent) ≠ idealStageEvents
      decide
  | ok u =>
    cases s1 with
    | error e =>
      refine ⟨?_, Or.inr ⟨e, rfl, rfl, ?_⟩⟩
      · show [CouncilEvent.stage1_start] <+: idealStageEvents
        decide
      · show [CouncilEvent.stage1_start] ≠ idealStageEvents
        decide
    | ok u1 =>
      cases s2 with
      | error e =>
        refine ⟨?_, Or.inr ⟨e, rfl, rfl, ?_⟩⟩
        · show [CouncilEvent.stage1_start, CouncilEvent.stage1_complete,
            CouncilEvent.stage2_start] <+: idealStageEvents
          decide
        · show [CouncilEvent.stage1_start, CouncilEvent.stage1_complete,
            CouncilEvent.stage2_start] ≠ idealStageEvents
          decide
      | ok u2 =>
        cases s3 with
        | error e =>
          refine ⟨?_, Or.inr ⟨e, rfl, rfl, ?_⟩⟩
          · show [CouncilEvent.stage1_start, CouncilEvent.stage1_complete,
              CouncilEvent.stage2_start, CouncilEvent.stage2_complete,
              CouncilEvent.stage3_start] <+: idealStageEvents
            decide
          · show [CouncilEvent.stage1_start, CouncilEvent.stage1_complete,
              CouncilEvent.stage2_start, CouncilEvent.stage2_complete,
              CouncilEvent.stage3_start] ≠ idealStageEvents
            decide
        | ok u3 =>
          cases title with
          | none =>
            cases save with
            | error e =>
              refine ⟨?_, Or.inr ⟨e, rfl, rfl, ?_⟩⟩
              · show [CouncilEvent.stage1_start, CouncilEvent.stage1_complete,
                  CouncilEvent.stage2_start, CouncilEvent.stage2_complete,
                  CouncilEvent.stage3_start, CouncilEvent.stage3_complete] <+:
                    idealStageEvents
                decide
              · show [CouncilEvent.stage1_start, CouncilEvent.stage1_complete,
                  CouncilEvent.stage2_start, CouncilEvent.stage2_complete,
                  CouncilEvent.stage3_start, CouncilEvent.stage3_complete] ≠
                    idealStageEvents
                decide
            | ok u4 =>
              refine ⟨?_, Or.inl ⟨rfl, rfl⟩⟩
              show idealStageEvents <+: idealStageEvents
              exact List.prefix_refl _
          | some t =>
            cases t with
            | error e =>
              refine ⟨?_, Or.inr ⟨e, rfl, rfl, ?_⟩⟩
              · show [CouncilEvent.stage1_start, CouncilEvent.stage1_complete,
                  CouncilEvent.stage2_start, CouncilEvent.stage2_complete,
                  CouncilEvent.stage3_start, CouncilEvent.stage3_complete] <+:
                    idealStageEvents
                decide
              · show [CouncilEvent.stage1_start, CouncilEvent.stage1_complete,
                  CouncilEvent.stage2_start, CouncilEvent.stage2_complete,
                  CouncilEvent.stage3_start, CouncilEvent.stage3_complete] ≠
                    idealStageEvents
                decide
            | ok u4 =>
              cases save with
              | error e =>
                refine ⟨?_, Or.inr ⟨e, rfl, rfl, ?_⟩⟩
                · show [CouncilEvent.stage1_start, CouncilEvent.stage1_complete,
                    CouncilEvent.stage2_start, CouncilEvent.stage2_complete,
                    CouncilEvent.stage3_start, CouncilEvent.stage3_complete] <+:
                      idealStageEvents
                  decide
                · show [CouncilEvent.stage1_start, CouncilEvent.stage1_complete,
                    CouncilEvent.stage2_start, CouncilEvent.stage2_complete,
                    CouncilEvent.stage3_start, CouncilEvent.stage3_complete] ≠
                      idealStageEvents
                  decide
              | ok u5 =>
                refine ⟨?_, Or.inl ⟨rfl, rfl⟩⟩
                show idealStageEvents <+: idealStageEvents
                exact List.prefix_refl _

/-- C8 witness: a concrete run in which Stage 2 raises — the stage events
emitted so far form a prefix of the protocol order. -/
theorem event_stream_protocol_witness :
    (event_generator (.ok ()) (.ok ()) (.error "boom") (.ok ()) none
        (.ok ())).filter isStageEvent <+: idealStageEvents :=
  (event_stream_protocol (.ok ()) (.ok ()) (.error "boom") (.ok ()) none (.ok ())).1

/-! ## Theorems: system-prompt loading -/

/-- C10: get_system_prompt is total — it returns the empty string on any
file-system failure and when the content has no matching System Prompt
section, and otherwise returns the stripped body of the section; on the
repository's own test fixture the result is exactly the fenced prompt
text. -/
theorem get_system_prompt_total_and_section :
    (∀ (fs : String → Except String String) (path e : String),
      fs path = .error e → get_system_prompt fs path = "") ∧
    (∀ (fs : String → Except String String) (path c : String),
      fs path = .ok c → findSection c.toList = none →
      get_system_prompt fs path = "") ∧
    (∀ (fs : String → Except String String) (path c : String) (sec : List Char),
      fs path = .ok c → findSection c.toList = some sec →
      get_system_prompt fs path = String.mk (stripChars sec)) ∧
    get_system_prompt
      (fun _ => .ok "# Test\n\n## System Prompt\n\n```markdown\nYou are a test.\n```\n\n## Other")
      "prompts/test.md" = "You are a test." := by
  refine ⟨?_, ?_, ?_, by decide⟩
  · intro fs path e h
    simp [get_system_prompt, h]
  · intro fs path c h h2
    simp [get_system_prompt, h, show findSection c.data = none from h2]
  · intro fs path c sec h h2
    simp [get_system_prompt, h, show findSection c.data = some sec from h2]

/-- C10 witness: a failing file system and a sectionless file both yield the
empty string. -/
theorem get_system_prompt_total_and_section_witness :
    get_system_prompt (fun _ => .error "io error") "p" = "" ∧
    get_system_prompt (fun _ => .ok "no section") "p" = "" := by
  have h := get_system_prompt_total_and_section
  exact ⟨h.1 _ "p" "io error" rfl, h.2.1 _ "p" "no section" rfl (by decide)⟩

end CircleOfTrust
